import Mathlib

/-!
Verification of the retrieval-fusion and adaptive-confidence subsystem of the
Aura repository: Reciprocal Rank Fusion (`app/retrieval/rrf.py`), query
expansion (`apps/api/retrieval/query_expansion.py`), confidence statistics
(`apps/api/services/confidence.py`) and the CRAG evaluator
(`apps/api/evaluation/crag.py`).

Python floats are modelled as rationals (`ℚ`), mutable dictionaries as
insertion-ordered association lists (updating an existing key keeps its
position, a new key is appended — Python `dict` semantics), Python's stable
`list.sort(key=..., reverse=True)` as a stable descending insertion sort, and
the async database repository as explicit state passing over a
`String → Option ConfidenceStats` store.
-/

namespace Aura

/-! ### Association-list primitives (Python `dict` with insertion order) -/

/-- First value bound to key `k`, like `d.get(k)` on a Python dict. -/
def alookup {β : Type _} : List (String × β) → String → Option β
  | [], _ => none
  | (k', v) :: t, k => if k' = k then some v else alookup t k

/-- `d[k] = v` on a Python dict: replace in place if the key is present,
append at the end otherwise. -/
def updA {β : Type _} : List (String × β) → String → β → List (String × β)
  | [], k, v => [(k, v)]
  | (k', v') :: t, k, v => if k' = k then (k, v) :: t else (k', v') :: updA t k v

/-! ### Data model of `app/retrieval/rrf.py` -/

/-- `ScoredDocument`: single retrieval result with metadata.  Metadata values
are drawn from an arbitrary type `α` of scalar (non-list) Python values. -/
structure ScoredDocument (α : Type _) where
  document_id : String
  score : ℚ
  metadata : List (String × α)
  deriving DecidableEq

/-- A value in the merged metadata mapping produced by `_merge_metadata`:
either a still-scalar value or a list grown from distinct values. -/
inductive MergedValue (α : Type _) where
  | scalar (a : α)
  | vlist (l : List α)
  deriving DecidableEq

/-- `FusedDocument`: document enriched with the fused score and evidence. -/
structure FusedDocument (α : Type _) where
  document_id : String
  score : ℚ
  metadata : List (String × MergedValue α)
  contributions : List (ScoredDocument α)
  deriving DecidableEq

variable {α : Type _}

/-! ### `_merge_metadata` -/

/-- One `for key, value in result.metadata.items()` step of `_merge_metadata`:
new key is stored as a scalar; a second distinct value promotes the scalar to
a two-element list; further values are appended to the list unless present. -/
def mergeItem [DecidableEq α] (merged : List (String × MergedValue α))
    (kv : String × α) : List (String × MergedValue α) :=
  match alookup merged kv.1 with
  | none => updA merged kv.1 (.scalar kv.2)
  | some (.vlist l) =>
      if kv.2 ∈ l then merged else updA merged kv.1 (.vlist (l ++ [kv.2]))
  | some (.scalar a) =>
      if a = kv.2 then merged else updA merged kv.1 (.vlist [a, kv.2])

/-- `_merge_metadata(documents)`: fold every `(key, value)` item of every
document, in order, into the merged mapping. -/
def merge_metadata [DecidableEq α] (documents : List (ScoredDocument α)) :
    List (String × MergedValue α) :=
  documents.foldl (fun m d => d.metadata.foldl mergeItem m) []

/-! ### Reciprocal rank fusion -/

/-- Per-list weight: `weights[list_index]` when weights are given, else `1.0`. -/
def weightAt (weights : Option (List ℚ)) (i : ℕ) : ℚ :=
  match weights with
  | none => 1
  | some ws => ws.getD i 1

/-- The inner `for rank, result in enumerate(results, start=1)` loop: each
element at 1-based rank `r` is paired with its contribution `w / (k + r)`. -/
def rankItems (k : ℕ) (w : ℚ) : ℕ → List (ScoredDocument α) → List (ℚ × ScoredDocument α)
  | _, [] => []
  | r, d :: ds => (w / (k + r), d) :: rankItems k w (r + 1) ds

/-- The outer `for list_index, results in enumerate(result_sets)` loop,
flattened to the processed `(rr_score, document)` items in program order. -/
def rrfItems (k : ℕ) (weights : Option (List ℚ)) :
    ℕ → List (List (ScoredDocument α)) → List (ℚ × ScoredDocument α)
  | _, [] => []
  | i, results :: rest =>
      rankItems k (weightAt weights i) 1 results ++ rrfItems k weights (i + 1) rest

/-- `fused_scores[id] = fused_scores.get(id, 0.0) + rr_score` on the
insertion-ordered dict. -/
def scoresStep (fused : List (String × ℚ)) (item : ℚ × ScoredDocument α) :
    List (String × ℚ) :=
  updA fused item.2.document_id ((alookup fused item.2.document_id).getD 0 + item.1)

/-- The accumulated `fused_scores` dict, as an insertion-ordered list. -/
def fusedScores (k : ℕ) (weights : Option (List ℚ))
    (result_sets : List (List (ScoredDocument α))) : List (String × ℚ) :=
  (rrfItems k weights 0 result_sets).foldl scoresStep []

/-- `contributions[document_id]`: every occurrence of the document across the
result sets, in processing order. -/
def contribsOf (result_sets : List (List (ScoredDocument α))) (id : String) :
    List (ScoredDocument α) :=
  result_sets.flatten.filter (fun d => d.document_id = id)

/-- Build the unsorted `fused_documents` list from the `fused_scores` dict
(iteration order = key insertion order = first-seen order of document ids). -/
def fusedDocuments [DecidableEq α] (k : ℕ) (weights : Option (List ℚ))
    (result_sets : List (List (ScoredDocument α))) : List (FusedDocument α) :=
  (fusedScores k weights result_sets).map fun p =>
    { document_id := p.1
      score := p.2
      metadata := merge_metadata (contribsOf result_sets p.1)
      contributions := contribsOf result_sets p.1 }

/-- Stable descending insertion: the new element goes in front of the first
element whose score is `≤` its own, so earlier elements win ties. -/
def insertDesc (d : FusedDocument α) : List (FusedDocument α) → List (FusedDocument α)
  | [] => [d]
  | e :: t => if e.score ≤ d.score then d :: e :: t else e :: insertDesc d t

/-- `fused_documents.sort(key=lambda item: item.score, reverse=True)`:
a stable sort by fused score descending. -/
def sortDesc : List (FusedDocument α) → List (FusedDocument α)
  | [] => []
  | d :: t => insertDesc d (sortDesc t)

/-- The `weights is not None and len(weights) != len(result_sets)` validation
(here phrased positively: `true` when the call is acceptable). -/
def weightsOk (weights : Option (List ℚ)) (result_sets : List (List (ScoredDocument α))) : Bool :=
  match weights with
  | none => true
  | some ws => ws.length == result_sets.length

/-- `reciprocal_rank_fusion(result_sets, k=60, limit=None, weights=None)`.
An empty `result_sets` returns `[]` before the weights validation; a weight
mismatch raises `ValueError`; otherwise scores are accumulated, documents
are sorted by fused score descending and truncated to `limit` if given. -/
def reciprocal_rank_fusion [DecidableEq α]
    (result_sets : List (List (ScoredDocument α))) (k : ℕ := 60)
    (limit : Option ℕ := none) (weights : Option (List ℚ) := none) :
    Except String (List (FusedDocument α)) :=
  if result_sets.isEmpty then .ok []
  else if weightsOk weights result_sets then
    let sorted := sortDesc (fusedDocuments k weights result_sets)
    .ok (match limit with
         | some l => sorted.take l
         | none => sorted)
  else .error "weights length must match the number of result sets"

/-! ### Specification-side definitions for RRF (from the spec's words) -/

/-- Modelled from the spec: the contribution of one ranked list to the fused
score of document `id` — `weight / (k + r)` summed over every 1-based rank
`r` at which the document appears in the list, 0 when absent. -/
def rankContribution (k : ℕ) (w : ℚ) : ℕ → List (ScoredDocument α) → String → ℚ
  | _, [], _ => 0
  | r, d :: ds, id =>
      (if d.document_id = id then w / (k + r) else 0) + rankContribution k w (r + 1) ds id

/-- Modelled from the spec: a document's fused score is the sum of its
contributions across all lists (absence from a list contributes 0). -/
def specFusedScore (k : ℕ) (weights : Option (List ℚ)) :
    ℕ → List (List (ScoredDocument α)) → String → ℚ
  | _, [], _ => 0
  | i, results :: rest, id =>
      rankContribution k (weightAt weights i) 1 results id
        + specFusedScore k weights (i + 1) rest id

/-- First-occurrence deduplication: the order in which distinct values were
first seen. -/
def firstDedupFrom {β : Type _} [DecidableEq β] : List β → List β → List β
  | acc, [] => acc
  | acc, v :: t => firstDedupFrom (if v ∈ acc then acc else acc ++ [v]) t

/-- Distinct values of a list in first-seen order. -/
def firstDedup {β : Type _} [DecidableEq β] (l : List β) : List β :=
  firstDedupFrom [] l

/-- Document ids in processing order (lists in sequence order, ranks within
each list), duplicates included. -/
def processedIds (result_sets : List (List (ScoredDocument α))) : List String :=
  result_sets.flatten.map (fun d => d.document_id)

/-! ### Further spec-side helpers for the RRF claims -/

/-- Running total of the reciprocal-rank contributions to `id` in a flat item
list. -/
def sumFor (id : String) : List (ℚ × ScoredDocument α) → ℚ
  | [] => 0
  | it :: t => (if it.2.document_id = id then it.1 else 0) + sumFor id t

/-- The merged-metadata value determined by the distinct values (in first-seen
order): absent for no value, scalar for exactly one, list for two or more. -/
def mergedOf {β : Type _} : List β → Option (MergedValue β)
  | [] => none
  | [a] => some (.scalar a)
  | a :: b :: t => some (.vlist (a :: b :: t))

/-- The sequence of values bound to `key` in a flat `(key, value)` item list. -/
def valuesFor {β : Type _} (key : String) : List (String × β) → List β
  | [] => []
  | (k, v) :: t => if k = key then v :: valuesFor key t else valuesFor key t

/-- All `(key, value)` metadata items of a document list, in iteration order. -/
def metaItems (documents : List (ScoredDocument α)) : List (String × α) :=
  (documents.map (fun d => d.metadata)).flatten

/-- One merged-value update step, viewed per key (mirrors the three live
branches of `mergeItem`). -/
def addVal [DecidableEq α] : MergedValue α → α → MergedValue α
  | .scalar a, v => if a = v then .scalar a else .vlist [a, v]
  | .vlist l, v => if v ∈ l then .vlist l else .vlist (l ++ [v])

/-- Replay a sequence of values into an optional merged value. -/
def mergedExtend [DecidableEq α] : Option (MergedValue α) → List α → Option (MergedValue α)
  | st, [] => st
  | none, v :: t => mergedExtend (some (.scalar v)) t
  | some m, v :: t => mergedExtend (some (addVal m v)) t

/-- The distinct values recorded in a merged value. -/
def MergedValue.toVals : MergedValue α → List α
  | .scalar a => [a]
  | .vlist l => l

end Aura

namespace Aura

/-! ### Query expansion (`apps/api/retrieval/query_expansion.py`)

Strategies are modelled as pure functions from the normalized query and the
per-call context to their suggestion list; `γ` stands for the optional
`QueryContext` argument, which `expand` merely forwards. -/

/-- Python `str.split()` (no separator): split on whitespace runs, dropping
empty pieces, written as structural recursion over the character list.  `cur`
holds the current in-progress word, in reverse. -/
def splitWsGo : List Char → List Char → List String
  | [], cur => if cur = [] then [] else [String.mk cur.reverse]
  | c :: rest, cur =>
    if c.isWhitespace then
      if cur = [] then splitWsGo rest [] else String.mk cur.reverse :: splitWsGo rest []
    else splitWsGo rest (c :: cur)

/-- `" ".join(words)`. -/
def joinSpace : List String → String
  | [] => ""
  | [w] => w
  | w :: ws => w ++ " " ++ joinSpace ws

/-- `_normalize_query`: `" ".join(text.split())` — collapse whitespace runs,
trim, join with single spaces. -/
def normalize_query (text : String) : String :=
  joinSpace (splitWsGo text.data [])

/-- Coordinator that combines multiple expansion strategies. -/
structure QueryExpander (γ : Type _) where
  strategies : List (String → γ → List String)
  max_expansions : ℕ := 8
  include_original : Bool := false

variable {γ : Type _}

/-- The inner `for suggestion in suggestions` loop of `QueryExpander.expand`:
returns the updated seen set, the updated expansion list and whether
`len(expansions) >= max_expansions` triggered the early `return`. -/
def processSuggestions (maxE : ℕ) :
    List String → List String → List String → List String × List String × Bool
  | [], seen, acc => (seen, acc, false)
  | sug :: rest, seen, acc =>
    let n := normalize_query sug
    if n = "" ∨ n ∈ seen then processSuggestions maxE rest seen acc
    else
      let seen' := n :: seen
      let acc' := acc ++ [n]
      if maxE ≤ acc'.length then (seen', acc', true)
      else processSuggestions maxE rest seen' acc'

/-- The outer `for strategy in self.strategies` loop: feed each strategy's
suggestions through `processSuggestions`, stopping at the cap.  The boolean
records whether the early `return expansions` path was taken. -/
def expandStrategies (maxE : ℕ) (nq : String) (ctx : γ) :
    List (String → γ → List String) → List String → List String → List String × Bool
  | [], _seen, acc => (acc, false)
  | strat :: rest, seen, acc =>
    match processSuggestions maxE (strat nq ctx) seen acc with
    | (seen', acc', capped) =>
      if capped then (acc', true) else expandStrategies maxE nq ctx rest seen' acc'

/-- `QueryExpander.expand(query, context)`: normalize, run the strategies with
the seen set seeded with the normalized original, and — only when the loop
completed without the early cap return — prepend the original when
`include_original` is set and it is not already among the expansions. -/
def QueryExpander.expand (e : QueryExpander γ) (query : String) (ctx : γ) : List String :=
  let nq := normalize_query query
  match expandStrategies e.max_expansions nq ctx e.strategies [nq] [] with
  | (expansions, capped) =>
    if capped then expansions
    else if e.include_original ∧ nq ∉ expansions then nq :: expansions
    else expansions

end Aura

namespace Aura

/-! ### Confidence statistics (`apps/api/services/confidence.py`)

The async SQL repository is modelled by explicit state passing over a store
mapping metric names to their persisted rows. -/

/-- Aggregated confidence statistics for a given metric. -/
structure ConfidenceStats where
  metric : String
  sample_count : ℕ
  success_count : ℕ
  failure_count : ℕ
  rolling_score : ℚ
  rolling_threshold : ℚ
  deriving DecidableEq

/-- `ConfidenceStats.with_default`. -/
def ConfidenceStats.with_default (metric : String) (threshold : ℚ) : ConfidenceStats :=
  { metric := metric
    sample_count := 0
    success_count := 0
    failure_count := 0
    rolling_score := threshold
    rolling_threshold := threshold }

/-- `ConfidenceStats.updated(score=…, passed=…, smoothing_factor=…,
min_threshold=…, max_threshold=…)`. -/
def ConfidenceStats.updated (s : ConfidenceStats) (score : ℚ) (passed : Bool)
    (smoothing_factor min_threshold max_threshold : ℚ) : ConfidenceStats :=
  let success_count := s.success_count + (if passed then 1 else 0)
  let failure_count := s.failure_count + (if passed then 0 else 1)
  let sample_count := success_count + failure_count
  let rolling_score :=
    if s.sample_count = 0 then score
    else s.rolling_score + smoothing_factor * (score - s.rolling_score)
  let success_rate : ℚ := if sample_count = 0 then 0 else (success_count : ℚ) / sample_count
  let dynamic_bias := (success_rate - 0.5) * 0.2
  let base_threshold := rolling_score + dynamic_bias
  let rolling_threshold := max min_threshold (min max_threshold base_threshold)
  { metric := s.metric
    sample_count := sample_count
    success_count := success_count
    failure_count := failure_count
    rolling_score := rolling_score
    rolling_threshold := rolling_threshold }

/-- The configuration a successfully constructed `ConfidenceStatsRepository`
carries (`_default_threshold` is stored already clamped). -/
structure ConfidenceRepo where
  smoothing_factor : ℚ
  min_threshold : ℚ
  max_threshold : ℚ
  default_threshold : ℚ
  deriving DecidableEq

/-- `ConfidenceStatsRepository.__init__`: validation and clamping of the
configuration (the session factory and engine play no algorithmic role). -/
def mkConfidenceStatsRepository (default_threshold : ℚ := 0.6)
    (smoothing_factor : ℚ := 0.2) (min_threshold : ℚ := 0.2)
    (max_threshold : ℚ := 0.95) : Except String ConfidenceRepo :=
  if ¬(0 < smoothing_factor ∧ smoothing_factor ≤ 1) then
    .error "smoothing_factor must be in the (0, 1] range"
  else if ¬(0 ≤ min_threshold ∧ min_threshold ≤ max_threshold ∧ max_threshold ≤ 1) then
    .error "threshold bounds must satisfy 0 <= min <= max <= 1"
  else
    .ok { smoothing_factor := smoothing_factor
          min_threshold := min_threshold
          max_threshold := max_threshold
          default_threshold := max min_threshold (min max_threshold default_threshold) }

/-- The persisted `confidence_stats` table, keyed by metric name. -/
def Store : Type := String → Option ConfidenceStats

/-- A database with no rows. -/
def emptyStore : Store := fun _ => none

/-- Upsert of one row. -/
def setRow (store : Store) (metric : String) (s : ConfidenceStats) : Store :=
  fun m => if m = metric then some s else store m

/-- `ensure_metric`: return current stats, inserting a default-seeded record
if the metric has none yet. -/
def ensure_metric (repo : ConfidenceRepo) (store : Store) (metric : String) :
    ConfidenceStats × Store :=
  match store metric with
  | none =>
    let stats := ConfidenceStats.with_default metric repo.default_threshold
    (stats, setRow store metric stats)
  | some row => (row, store)

/-- `get_threshold`: `ensure_metric(metric).rolling_threshold`. -/
def get_threshold (repo : ConfidenceRepo) (store : Store) (metric : String) :
    ℚ × Store :=
  match ensure_metric repo store metric with
  | (stats, store') => (stats.rolling_threshold, store')

/-- `record_outcome`: read current stats (or seed the default), compute the
updated stats, persist the row and return the updated stats. -/
def record_outcome (repo : ConfidenceRepo) (store : Store) (metric : String)
    (score : ℚ) (passed : Bool) : ConfidenceStats × Store :=
  let stats :=
    match store metric with
    | none => ConfidenceStats.with_default metric repo.default_threshold
    | some row => row
  let updated := stats.updated score passed repo.smoothing_factor
      repo.min_threshold repo.max_threshold
  (updated, setRow store metric updated)

/-- Fold a sequence of `record_outcome` calls over the store. -/
def runOutcomes (repo : ConfidenceRepo) (metric : String) (store : Store) :
    List (ℚ × Bool) → Store
  | [] => store
  | c :: t => runOutcomes repo metric (record_outcome repo store metric c.1 c.2).2 t

/-- The "previous stats record" a `record_outcome` call starts from: the
stored row, or the default-seeded record when the metric has none
(the `stats = …` binding inside `record_outcome`). -/
def currentStats (repo : ConfidenceRepo) (store : Store) (metric : String) :
    ConfidenceStats :=
  match store metric with
  | none => ConfidenceStats.with_default metric repo.default_threshold
  | some row => row

end Aura

namespace Aura

/-! ### CRAG evaluator (`apps/api/evaluation/crag.py`) -/

/-- A value in an evaluation result's metadata mapping: a candidate-supplied
value, or one of the two values the evaluator itself adds. -/
inductive MetaVal (α : Type _) where
  | user (a : α)
  | str (s : String)
  | bool (b : Bool)
  deriving DecidableEq

variable {α : Type _}

/-- `CandidateAnswer`: input payload evaluated by the CRAG model. -/
structure CandidateAnswer (α : Type _) where
  question : String
  context : String
  answer : String
  metadata : List (String × α)
  deriving DecidableEq

/-- `EvaluationResult`: result of the CRAG evaluation, including thresholds. -/
structure EvaluationResult (α : Type _) where
  candidate : CandidateAnswer α
  score : ℚ
  passed : Bool
  applied_threshold : ℚ
  updated_threshold : ℚ
  metadata : List (String × MetaVal α)
  deriving DecidableEq

/-- `metadata = dict(candidate.metadata); metadata.update({"metric": …,
"passed": …})`. -/
def evalMetadata (candidate : CandidateAnswer α) (metric : String) (passed : Bool) :
    List (String × MetaVal α) :=
  updA (updA (candidate.metadata.map fun kv => (kv.1, MetaVal.user kv.2))
      "metric" (.str metric))
    "passed" (.bool passed)

/-- `CRAGConfidenceEvaluator.evaluate(candidate, update_stats=…)`: snapshot
the threshold via `ensure_metric`, score the candidate with the backend,
compare, optionally record the outcome, and report both thresholds.  The
scoring backend is a pure function of the candidate. -/
def evaluate (repo : ConfidenceRepo) (metric : String)
    (backend : CandidateAnswer α → ℚ) (store : Store)
    (candidate : CandidateAnswer α) (update_stats : Bool) :
    EvaluationResult α × Store :=
  match ensure_metric repo store metric with
  | (stats_before, store₁) =>
    let threshold_before := stats_before.rolling_threshold
    let score := backend candidate
    let passed : Bool := threshold_before ≤ score
    match (if update_stats then record_outcome repo store₁ metric score passed
           else (stats_before, store₁)) with
    | (stats_after, store₂) =>
      ({ candidate := candidate
         score := score
         passed := passed
         applied_threshold := threshold_before
         updated_threshold := stats_after.rolling_threshold
         metadata := evalMetadata candidate metric passed }, store₂)

end Aura

namespace Aura

/-! ## Lemmas about the association-list primitives -/

variable {α : Type _} {β : Type _}

lemma alookup_updA_self (l : List (String × β)) (k : String) (v : β) :
    alookup (updA l k v) k = some v := by
  induction l with
  | nil => simp [updA, alookup]
  | cons h t ih =>
    obtain ⟨k', v'⟩ := h
    by_cases hk : k' = k <;> simp [updA, alookup, hk, ih]

lemma alookup_updA_ne (l : List (String × β)) {k k' : String} (v : β) (h : k' ≠ k) :
    alookup (updA l k v) k' = alookup l k' := by
  induction l with
  | nil => simp [updA, alookup, Ne.symm h]
  | cons p t ih =>
    obtain ⟨k₀, v₀⟩ := p
    by_cases hk : k₀ = k
    · subst hk
      simp [updA, alookup, Ne.symm h]
    · simp [updA, alookup, hk, ih]

lemma alookup_isSome_iff (l : List (String × β)) (k : String) :
    (alookup l k).isSome ↔ k ∈ l.map Prod.fst := by
  induction l with
  | nil => simp [alookup]
  | cons p t ih =>
    obtain ⟨k₀, v₀⟩ := p
    by_cases hk : k₀ = k
    · subst hk
      simp [alookup]
    · simp [alookup, hk, ih, Ne.symm hk]

lemma map_fst_updA (l : List (String × β)) (k : String) (v : β) :
    (updA l k v).map Prod.fst =
      if k ∈ l.map Prod.fst then l.map Prod.fst else l.map Prod.fst ++ [k] := by
  induction l with
  | nil => simp [updA]
  | cons p t ih =>
    obtain ⟨k₀, v₀⟩ := p
    by_cases hk : k₀ = k
    · subst hk
      simp [updA]
    · by_cases hm : k ∈ t.map Prod.fst <;>
        simp [updA, hk, Ne.symm hk, hm, ih]

lemma alookup_of_nodup_mem {l : List (String × β)} {k : String} {v : β}
    (hnd : (l.map Prod.fst).Nodup) (hm : (k, v) ∈ l) : alookup l k = some v := by
  induction l with
  | nil => cases hm
  | cons p t ih =>
    obtain ⟨k₀, v₀⟩ := p
    rcases List.mem_cons.mp hm with h | h
    · obtain ⟨rfl, rfl⟩ := Prod.mk.injEq .. ▸ h
      simp [alookup]
    · have hk : k₀ ≠ k := by
        rintro rfl
        exact (List.nodup_cons.mp hnd).1 (List.mem_map.mpr ⟨(k₀, v), h, rfl⟩)
      simp [alookup, hk, ih (List.nodup_cons.mp hnd).2 h]

/-! ## Lemmas about first-seen deduplication -/

lemma firstDedupFrom_eq_append {γ : Type _} [DecidableEq γ] :
    ∀ (l acc : List γ), ∃ s, firstDedupFrom acc l = acc ++ s := by
  intro l
  induction l with
  | nil => exact fun acc => ⟨[], by simp [firstDedupFrom]⟩
  | cons v t ih =>
    intro acc
    by_cases hv : v ∈ acc
    · obtain ⟨s, hs⟩ := ih acc
      exact ⟨s, by simp [firstDedupFrom, hv, hs]⟩
    · obtain ⟨s, hs⟩ := ih (acc ++ [v])
      exact ⟨v :: s, by simp [firstDedupFrom, hv, hs]⟩

lemma mem_firstDedupFrom {γ : Type _} [DecidableEq γ] :
    ∀ (l acc : List γ) (x : γ), x ∈ firstDedupFrom acc l ↔ x ∈ acc ∨ x ∈ l := by
  intro l
  induction l with
  | nil => simp [firstDedupFrom]
  | cons v t ih =>
    intro acc x
    by_cases hv : v ∈ acc
    · rw [show firstDedupFrom acc (v :: t) = firstDedupFrom acc t from by
        simp [firstDedupFrom, hv]]
      rw [ih acc x]
      constructor
      · rintro (h | h)
        · exact Or.inl h
        · exact Or.inr (List.mem_cons_of_mem _ h)
      · rintro (h | h)
        · exact Or.inl h
        · rcases List.mem_cons.mp h with rfl | h
          · exact Or.inl hv
          · exact Or.inr h
    · rw [show firstDedupFrom acc (v :: t) = firstDedupFrom (acc ++ [v]) t from by
        simp [firstDedupFrom, hv]]
      rw [ih (acc ++ [v]) x]
      simp only [List.mem_append, List.mem_singleton, List.mem_cons]
      tauto

lemma nodup_firstDedupFrom {γ : Type _} [DecidableEq γ] :
    ∀ (l acc : List γ), acc.Nodup → (firstDedupFrom acc l).Nodup := by
  intro l
  induction l with
  | nil => exact fun acc h => h
  | cons v t ih =>
    intro acc hacc
    by_cases hv : v ∈ acc
    · rw [show firstDedupFrom acc (v :: t) = firstDedupFrom acc t from by
        simp [firstDedupFrom, hv]]
      exact ih acc hacc
    · rw [show firstDedupFrom acc (v :: t) = firstDedupFrom (acc ++ [v]) t from by
        simp [firstDedupFrom, hv]]
      refine ih (acc ++ [v]) ?_
      simp [List.nodup_append, hacc, hv]

lemma nodup_firstDedup {γ : Type _} [DecidableEq γ] (l : List γ) :
    (firstDedup l).Nodup :=
  nodup_firstDedupFrom l [] List.nodup_nil

end Aura

namespace Aura

/-! ## Lemmas about the fused-score accumulation -/

variable {α : Type _}

lemma sumFor_append (id : String) (l₁ l₂ : List (ℚ × ScoredDocument α)) :
    sumFor id (l₁ ++ l₂) = sumFor id l₁ + sumFor id l₂ := by
  induction l₁ with
  | nil => simp [sumFor]
  | cons it t ih => simp [sumFor, ih]; ring

lemma sumFor_rankItems (id : String) (k : ℕ) (w : ℚ) (results : List (ScoredDocument α)) :
    ∀ r, sumFor id (rankItems k w r results) = rankContribution k w r results id := by
  induction results with
  | nil => intro r; simp [rankItems, rankContribution, sumFor]
  | cons d ds ih =>
    intro r
    by_cases h : d.document_id = id <;>
      simp [rankItems, rankContribution, sumFor, h, ih (r + 1)]

lemma sumFor_rrfItems (id : String) (k : ℕ) (w : Option (List ℚ))
    (rss : List (List (ScoredDocument α))) :
    ∀ i, sumFor id (rrfItems k w i rss) = specFusedScore k w i rss id := by
  induction rss with
  | nil => intro i; simp [rrfItems, specFusedScore, sumFor]
  | cons results rest ih =>
    intro i
    simp [rrfItems, specFusedScore, sumFor_append, sumFor_rankItems, ih (i + 1)]

lemma map_snd_rankItems (k : ℕ) (w : ℚ) (l : List (ScoredDocument α)) :
    ∀ r, (rankItems k w r l).map (fun it => it.2) = l := by
  induction l with
  | nil => intro r; simp [rankItems]
  | cons d ds ih => intro r; simp [rankItems, ih (r + 1)]

lemma map_snd_rrfItems (k : ℕ) (w : Option (List ℚ)) (rss : List (List (ScoredDocument α))) :
    ∀ i, (rrfItems k w i rss).map (fun it => it.2) = rss.flatten := by
  induction rss with
  | nil => intro i; simp [rrfItems]
  | cons results rest ih =>
    intro i
    simp [rrfItems, map_snd_rankItems, ih (i + 1)]

lemma map_ids_rrfItems (k : ℕ) (w : Option (List ℚ)) (rss : List (List (ScoredDocument α))) :
    (rrfItems k w 0 rss).map (fun it => it.2.document_id) = processedIds rss := by
  have h := map_snd_rrfItems k w rss 0
  calc (rrfItems k w 0 rss).map (fun it => it.2.document_id)
      = ((rrfItems k w 0 rss).map (fun it => it.2)).map (fun d => d.document_id) := by
        simp [List.map_map, Function.comp]
    _ = processedIds rss := by rw [h]; rfl

lemma getD_alookup_foldl_scoresStep (items : List (ℚ × ScoredDocument α)) :
    ∀ (acc : List (String × ℚ)) (id : String),
      (alookup (items.foldl scoresStep acc) id).getD 0
        = (alookup acc id).getD 0 + sumFor id items := by
  induction items with
  | nil => intro acc id; simp [sumFor]
  | cons it t ih =>
    intro acc id
    by_cases h : it.2.document_id = id
    · rw [List.foldl_cons, ih]
      simp [scoresStep, h, alookup_updA_self, sumFor]
      ring
    · rw [List.foldl_cons, ih]
      simp [scoresStep, sumFor, h, alookup_updA_ne _ _ (fun hk => h hk.symm)]

lemma isSome_alookup_foldl_scoresStep (items : List (ℚ × ScoredDocument α)) :
    ∀ (acc : List (String × ℚ)) (id : String),
      (alookup (items.foldl scoresStep acc) id).isSome
        ↔ (alookup acc id).isSome ∨ id ∈ items.map (fun it => it.2.document_id) := by
  induction items with
  | nil => intro acc id; simp
  | cons it t ih =>
    intro acc id
    by_cases h : it.2.document_id = id
    · rw [List.foldl_cons, ih]
      simp [scoresStep, h, alookup_updA_self]
    · rw [List.foldl_cons, ih]
      simp [scoresStep, h, Ne.symm h, alookup_updA_ne _ _ (fun hk => h hk.symm)]

lemma alookup_fusedScores (k : ℕ) (w : Option (List ℚ))
    (rss : List (List (ScoredDocument α))) (id : String) :
    alookup (fusedScores k w rss) id
      = if id ∈ processedIds rss then some (specFusedScore k w 0 rss id) else none := by
  have hsum := getD_alookup_foldl_scoresStep (rrfItems k w 0 rss) [] id
  have hsome := isSome_alookup_foldl_scoresStep (rrfItems k w 0 rss) [] id
  rw [map_ids_rrfItems] at hsome
  rw [sumFor_rrfItems] at hsum
  simp only [alookup, Option.getD_none, Option.isSome_none, Bool.false_eq_true,
    false_or, zero_add] at hsum hsome
  by_cases hm : id ∈ processedIds rss
  · obtain ⟨q, hq⟩ := Option.isSome_iff_exists.mp (hsome.mpr hm)
    rw [show fusedScores k w rss = (rrfItems k w 0 rss).foldl scoresStep [] from rfl]
    rw [hq] at hsum ⊢
    simp only [Option.getD_some] at hsum
    simp [hm, hsum]
  · have : ¬(alookup ((rrfItems k w 0 rss).foldl scoresStep []) id).isSome := by
      intro hs
      exact hm (hsome.mp hs)
    rw [show fusedScores k w rss = (rrfItems k w 0 rss).foldl scoresStep [] from rfl]
    simp only [Option.not_isSome_iff_eq_none] at this
    simp [hm, this]

lemma map_fst_foldl_scoresStep (items : List (ℚ × ScoredDocument α)) :
    ∀ (acc : List (String × ℚ)),
      (items.foldl scoresStep acc).map Prod.fst
        = firstDedupFrom (acc.map Prod.fst) (items.map (fun it => it.2.document_id)) := by
  induction items with
  | nil => intro acc; simp [firstDedupFrom]
  | cons it t ih =>
    intro acc
    rw [List.foldl_cons, ih]
    have hupd : (scoresStep acc it).map Prod.fst =
        if it.2.document_id ∈ acc.map Prod.fst then acc.map Prod.fst
        else acc.map Prod.fst ++ [it.2.document_id] := map_fst_updA ..
    by_cases hm : it.2.document_id ∈ acc.map Prod.fst <;>
      simp [hupd, hm, firstDedupFrom]

lemma map_fst_fusedScores (k : ℕ) (w : Option (List ℚ))
    (rss : List (List (ScoredDocument α))) :
    (fusedScores k w rss).map Prod.fst = firstDedup (processedIds rss) := by
  rw [show fusedScores k w rss = (rrfItems k w 0 rss).foldl scoresStep [] from rfl,
    map_fst_foldl_scoresStep, map_ids_rrfItems]
  rfl

lemma map_ids_fusedDocuments [DecidableEq α] (k : ℕ) (w : Option (List ℚ))
    (rss : List (List (ScoredDocument α))) :
    (fusedDocuments k w rss).map (fun d => d.document_id)
      = firstDedup (processedIds rss) := by
  rw [← map_fst_fusedScores k w rss]
  simp [fusedDocuments, List.map_map, Function.comp]

lemma score_of_mem_fusedDocuments [DecidableEq α] {k : ℕ} {w : Option (List ℚ)}
    {rss : List (List (ScoredDocument α))} {d : FusedDocument α}
    (hd : d ∈ fusedDocuments k w rss) :
    d.score = specFusedScore k w 0 rss d.document_id ∧ d.document_id ∈ processedIds rss := by
  obtain ⟨p, hp, rfl⟩ := List.mem_map.mp hd
  have hnd : ((fusedScores k w rss).map Prod.fst).Nodup := by
    rw [map_fst_fusedScores]
    exact nodup_firstDedup _
  have hl : alookup (fusedScores k w rss) p.1 = some p.2 :=
    alookup_of_nodup_mem hnd (by simpa using hp)
  rw [alookup_fusedScores] at hl
  by_cases hm : p.1 ∈ processedIds rss
  · simp only [hm, if_pos] at hl
    exact ⟨(Option.some_inj.mp hl).symm, hm⟩
  · simp [hm] at hl

end Aura

namespace Aura

/-! ## Lemmas about the stable descending sort -/

variable {α : Type _}

lemma insertDesc_perm (d : FusedDocument α) (l : List (FusedDocument α)) :
    List.Perm (insertDesc d l) (d :: l) := by
  induction l with
  | nil => simp [insertDesc]
  | cons e t ih =>
    by_cases hc : e.score ≤ d.score
    · simp [insertDesc, hc]
    · simp only [insertDesc, hc, if_neg, not_false_iff]
      exact (ih.cons e).trans (List.Perm.swap d e t)

lemma sortDesc_perm (l : List (FusedDocument α)) : List.Perm (sortDesc l) l := by
  induction l with
  | nil => simp [sortDesc]
  | cons d t ih => exact (insertDesc_perm d (sortDesc t)).trans (ih.cons d)

lemma insertDesc_sorted {l : List (FusedDocument α)} (d : FusedDocument α)
    (h : l.Pairwise (fun a b => b.score ≤ a.score)) :
    (insertDesc d l).Pairwise (fun a b => b.score ≤ a.score) := by
  induction l with
  | nil => simp [insertDesc]
  | cons e t ih =>
    obtain ⟨he, ht⟩ := List.pairwise_cons.mp h
    by_cases hc : e.score ≤ d.score
    · simp only [insertDesc, hc, if_pos]
      refine List.pairwise_cons.mpr ⟨?_, h⟩
      intro b hb
      rcases List.mem_cons.mp hb with rfl | hb
      · exact hc
      · exact (he b hb).trans hc
    · simp only [insertDesc, hc, if_neg, not_false_iff]
      refine List.pairwise_cons.mpr ⟨?_, ih ht⟩
      intro b hb
      have hb' : b = d ∨ b ∈ t := by
        have := (insertDesc_perm d t).mem_iff.mp hb
        simpa using this
      rcases hb' with rfl | hb'
      · exact le_of_lt (lt_of_not_le hc)
      · exact he b hb'

lemma sortDesc_sorted (l : List (FusedDocument α)) :
    (sortDesc l).Pairwise (fun a b => b.score ≤ a.score) := by
  induction l with
  | nil => simp [sortDesc]
  | cons d t ih => exact insertDesc_sorted d ih

lemma filter_score_insertDesc (d : FusedDocument α) (l : List (FusedDocument α)) (s : ℚ) :
    (insertDesc d l).filter (fun e => e.score = s)
      = (d :: l).filter (fun e => e.score = s) := by
  induction l with
  | nil => simp [insertDesc]
  | cons e t ih =>
    by_cases hc : e.score ≤ d.score
    · simp [insertDesc, hc]
    · have hlt : d.score < e.score := lt_of_not_le hc
      have hins : insertDesc d (e :: t) = e :: insertDesc d t := by
        simp [insertDesc, hc]
      rw [hins]
      by_cases hd : d.score = s
      · have hes : ¬(e.score = s) := fun hx => absurd (hd.trans hx.symm) (ne_of_lt hlt)
        simp [List.filter_cons, hd, hes, ih]
      · by_cases hes : e.score = s <;>
          simp [List.filter_cons, hd, hes, ih]

lemma filter_score_sortDesc (l : List (FusedDocument α)) (s : ℚ) :
    (sortDesc l).filter (fun e => e.score = s) = l.filter (fun e => e.score = s) := by
  induction l with
  | nil => simp [sortDesc]
  | cons d t ih =>
    rw [show sortDesc (d :: t) = insertDesc d (sortDesc t) from rfl,
      filter_score_insertDesc]
    by_cases hd : d.score = s
    · rw [List.filter_cons_of_pos (by simpa using hd),
        List.filter_cons_of_pos (by simpa using hd), ih]
    · rw [List.filter_cons_of_neg (by simpa using hd),
        List.filter_cons_of_neg (by simpa using hd), ih]

end Aura

namespace Aura

/-! ## Lemmas about `_merge_metadata` -/

variable {α : Type _}

lemma foldl_mergeItem_metaItems [DecidableEq α] :
    ∀ (docs : List (ScoredDocument α)) (acc : List (String × MergedValue α)),
      docs.foldl (fun m d => d.metadata.foldl mergeItem m) acc
        = (metaItems docs).foldl mergeItem acc := by
  intro docs
  induction docs with
  | nil => intro acc; simp [metaItems]
  | cons d t ih =>
    intro acc
    rw [List.foldl_cons, ih]
    simp [metaItems, List.foldl_append]

lemma alookup_mergeItem_self [DecidableEq α]
    (acc : List (String × MergedValue α)) (key : String) (v : α) :
    alookup (mergeItem acc (key, v)) key
      = some (match alookup acc key with
              | none => MergedValue.scalar v
              | some m => addVal m v) := by
  rcases hm : alookup acc key with _ | m
  · simp [mergeItem, hm, alookup_updA_self]
  · rcases m with a | l
    · by_cases ha : a = v
      · simp [mergeItem, hm, ha, addVal]
      · simp [mergeItem, hm, ha, addVal, alookup_updA_self]
    · by_cases hv : v ∈ l
      · simp [mergeItem, hm, hv, addVal]
      · simp [mergeItem, hm, hv, addVal, alookup_updA_self]

lemma alookup_mergeItem_ne [DecidableEq α]
    (acc : List (String × MergedValue α)) {key k' : String} (v : α) (h : key ≠ k') :
    alookup (mergeItem acc (k', v)) key = alookup acc key := by
  rcases hm : alookup acc k' with _ | m
  · simp [mergeItem, hm, alookup_updA_ne _ _ h]
  · rcases m with a | l
    · by_cases ha : a = v <;> simp [mergeItem, hm, ha, alookup_updA_ne _ _ h]
    · by_cases hv : v ∈ l <;> simp [mergeItem, hm, hv, alookup_updA_ne _ _ h]

lemma alookup_foldl_mergeItem [DecidableEq α] :
    ∀ (items : List (String × α)) (acc : List (String × MergedValue α)) (key : String),
      alookup (items.foldl mergeItem acc) key
        = mergedExtend (alookup acc key) (valuesFor key items) := by
  intro items
  induction items with
  | nil => intro acc key; simp [valuesFor, mergedExtend]
  | cons kv t ih =>
    intro acc key
    obtain ⟨k', v⟩ := kv
    by_cases hk : k' = key
    · subst hk
      rw [List.foldl_cons, ih, alookup_mergeItem_self]
      rcases hm : alookup acc k' with _ | m <;>
        simp [valuesFor, mergedExtend, hm]
    · rw [List.foldl_cons, ih, alookup_mergeItem_ne _ _ (Ne.symm hk)]
      simp [valuesFor, hk]

lemma mergedExtend_vlist [DecidableEq α] :
    ∀ (vs l : List α),
      mergedExtend (some (.vlist l)) vs = some (.vlist (firstDedupFrom l vs)) := by
  intro vs
  induction vs with
  | nil => intro l; simp [mergedExtend, firstDedupFrom]
  | cons v t ih =>
    intro l
    by_cases hv : v ∈ l <;>
      simp [mergedExtend, addVal, hv, firstDedupFrom, ih]

lemma mergedExtend_scalar [DecidableEq α] :
    ∀ (vs : List α) (a : α),
      mergedExtend (some (.scalar a)) vs = mergedOf (firstDedupFrom [a] vs) := by
  intro vs
  induction vs with
  | nil => intro a; simp [mergedExtend, firstDedupFrom, mergedOf]
  | cons v t ih =>
    intro a
    by_cases hv : v = a
    · subst hv
      have : (v ∈ [v]) := List.mem_singleton_self v
      simp [mergedExtend, addVal, firstDedupFrom, this, ih]
    · have hv' : v ∉ [a] := by simp [hv]
      rw [show mergedExtend (some (.scalar a)) (v :: t)
          = mergedExtend (some (addVal (.scalar a) v)) t from rfl]
      have hav : ¬(a = v) := fun h => hv h.symm
      rw [show addVal (MergedValue.scalar a) v = .vlist [a, v] from by
        simp [addVal, hav]]
      rw [mergedExtend_vlist]
      obtain ⟨s, hs⟩ := firstDedupFrom_eq_append t [a, v]
      rw [show firstDedupFrom [a] (v :: t) = firstDedupFrom [a, v] t from by
        simp [firstDedupFrom, hv]]
      rw [hs]
      rfl

lemma mergedExtend_none_eq [DecidableEq α] (vs : List α) :
    mergedExtend none vs = mergedOf (firstDedup vs) := by
  cases vs with
  | nil => simp [mergedExtend, firstDedup, firstDedupFrom, mergedOf]
  | cons v t =>
    rw [show mergedExtend (none : Option (MergedValue α)) (v :: t)
        = mergedExtend (some (.scalar v)) t from rfl]
    rw [mergedExtend_scalar]
    rw [show firstDedup (v :: t) = firstDedupFrom [v] t from by
      simp [firstDedup, firstDedupFrom]]

lemma alookup_merge_metadata [DecidableEq α]
    (docs : List (ScoredDocument α)) (key : String) :
    alookup (merge_metadata docs) key
      = mergedOf (firstDedup (valuesFor key (metaItems docs))) := by
  rw [show merge_metadata docs
      = docs.foldl (fun m d => d.metadata.foldl mergeItem m) [] from rfl]
  rw [foldl_mergeItem_metaItems, alookup_foldl_mergeItem]
  simp [alookup, mergedExtend_none_eq]

lemma mem_firstDedup_iff {γ : Type _} [DecidableEq γ] (l : List γ) (x : γ) :
    x ∈ firstDedup l ↔ x ∈ l := by
  rw [firstDedup, mem_firstDedupFrom]
  simp

end Aura

namespace Aura

/-! ## Lemmas about query expansion -/

variable {γ : Type _}

lemma processSuggestions_preserves (maxE : ℕ) :
    ∀ (l seen acc : List String) (x : String), x ∈ seen → x ∉ acc →
      x ∈ (processSuggestions maxE l seen acc).1
        ∧ x ∉ (processSuggestions maxE l seen acc).2.1 := by
  intro l
  induction l with
  | nil => intro seen acc x hs ha; simpa [processSuggestions] using ⟨hs, ha⟩
  | cons sug rest ih =>
    intro seen acc x hs ha
    by_cases hskip : normalize_query sug = "" ∨ normalize_query sug ∈ seen
    · rw [show processSuggestions maxE (sug :: rest) seen acc
          = processSuggestions maxE rest seen acc from by
        simp [processSuggestions, hskip]]
      exact ih seen acc x hs ha
    · have hxn : x ≠ normalize_query sug := by
        rintro rfl
        exact hskip (Or.inr hs)
      have hs' : x ∈ normalize_query sug :: seen := List.mem_cons_of_mem _ hs
      have ha' : x ∉ acc ++ [normalize_query sug] := by
        simp [ha, hxn]
      by_cases hcap : maxE ≤ acc.length + 1
      · rw [show processSuggestions maxE (sug :: rest) seen acc
            = (normalize_query sug :: seen, acc ++ [normalize_query sug], true) from by
          simp [processSuggestions, hskip, hcap]]
        exact ⟨hs', ha'⟩
      · rw [show processSuggestions maxE (sug :: rest) seen acc
            = processSuggestions maxE rest (normalize_query sug :: seen)
                (acc ++ [normalize_query sug]) from by
          simp [processSuggestions, hskip, hcap]]
        exact ih _ _ x hs' ha'

lemma expandStrategies_preserves (maxE : ℕ) (nq : String) (ctx : γ) :
    ∀ (strats : List (String → γ → List String)) (seen acc : List String)
      (x : String), x ∈ seen → x ∉ acc →
      x ∉ (expandStrategies maxE nq ctx strats seen acc).1 := by
  intro strats
  induction strats with
  | nil => intro seen acc x hs ha; simpa [expandStrategies] using ha
  | cons strat rest ih =>
    intro seen acc x hs ha
    obtain ⟨hs', ha'⟩ := processSuggestions_preserves maxE (strat nq ctx) seen acc x hs ha
    rcases hps : processSuggestions maxE (strat nq ctx) seen acc with ⟨seen', acc', capped⟩
    rw [hps] at hs' ha'
    cases capped with
    | true =>
      rw [show expandStrategies maxE nq ctx (strat :: rest) seen acc = (acc', true) from by
        simp [expandStrategies, hps]]
      exact ha'
    | false =>
      rw [show expandStrategies maxE nq ctx (strat :: rest) seen acc
          = expandStrategies maxE nq ctx rest seen' acc' from by
        simp [expandStrategies, hps]]
      exact ih seen' acc' x hs' ha'

lemma original_not_mem_expandStrategies (e : QueryExpander γ) (q : String) (ctx : γ) :
    normalize_query q
      ∉ (expandStrategies e.max_expansions (normalize_query q) ctx e.strategies
          [normalize_query q] []).1 :=
  expandStrategies_preserves _ _ ctx e.strategies _ [] _ (List.mem_singleton_self _)
    (List.not_mem_nil _)

lemma processSuggestions_length (maxE : ℕ) :
    ∀ (l seen acc : List String), acc.length < maxE →
      (processSuggestions maxE l seen acc).2.1.length ≤ maxE
        ∧ ((processSuggestions maxE l seen acc).2.2 = false →
            (processSuggestions maxE l seen acc).2.1.length < maxE) := by
  intro l
  induction l with
  | nil => intro seen acc h; simpa [processSuggestions] using ⟨le_of_lt h, h⟩
  | cons sug rest ih =>
    intro seen acc h
    by_cases hskip : normalize_query sug = "" ∨ normalize_query sug ∈ seen
    · rw [show processSuggestions maxE (sug :: rest) seen acc
          = processSuggestions maxE rest seen acc from by
        simp [processSuggestions, hskip]]
      exact ih seen acc h
    · by_cases hcap : maxE ≤ acc.length + 1
      · rw [show processSuggestions maxE (sug :: rest) seen acc
            = (normalize_query sug :: seen, acc ++ [normalize_query sug], true) from by
          simp [processSuggestions, hskip, hcap]]
        refine ⟨?_, by simp⟩
        simp only [List.length_append, List.length_singleton]
        omega
      · rw [show processSuggestions maxE (sug :: rest) seen acc
            = processSuggestions maxE rest (normalize_query sug :: seen)
                (acc ++ [normalize_query sug]) from by
          simp [processSuggestions, hskip, hcap]]
        refine ih _ _ ?_
        simp only [List.length_append, List.length_singleton] at hcap ⊢
        omega

lemma expandStrategies_length (maxE : ℕ) (nq : String) (ctx : γ) :
    ∀ (strats : List (String → γ → List String)) (seen acc : List String),
      acc.length < maxE →
      (expandStrategies maxE nq ctx strats seen acc).1.length ≤ maxE
        ∧ ((expandStrategies maxE nq ctx strats seen acc).2 = false →
            (expandStrategies maxE nq ctx strats seen acc).1.length < maxE) := by
  intro strats
  induction strats with
  | nil => intro seen acc h; simpa [expandStrategies] using ⟨le_of_lt h, h⟩
  | cons strat rest ih =>
    intro seen acc h
    have hps := processSuggestions_length maxE (strat nq ctx) seen acc h
    rcases hp : processSuggestions maxE (strat nq ctx) seen acc with ⟨seen', acc', capped⟩
    rw [hp] at hps
    cases capped with
    | true =>
      rw [show expandStrategies maxE nq ctx (strat :: rest) seen acc = (acc', true) from by
        simp [expandStrategies, hp]]
      exact ⟨hps.1, by simp⟩
    | false =>
      rw [show expandStrategies maxE nq ctx (strat :: rest) seen acc
          = expandStrategies maxE nq ctx rest seen' acc' from by
        simp [expandStrategies, hp]]
      exact ih seen' acc' (hps.2 rfl)

lemma processSuggestions_append_of_capped (maxE : ℕ) :
    ∀ (l₁ l₂ seen acc : List String),
      (processSuggestions maxE l₁ seen acc).2.2 = true →
      processSuggestions maxE (l₁ ++ l₂) seen acc = processSuggestions maxE l₁ seen acc := by
  intro l₁
  induction l₁ with
  | nil => intro l₂ seen acc h; simp [processSuggestions] at h
  | cons sug rest ih =>
    intro l₂ seen acc h
    by_cases hskip : normalize_query sug = "" ∨ normalize_query sug ∈ seen
    · rw [show processSuggestions maxE (sug :: rest) seen acc
          = processSuggestions maxE rest seen acc from by
        simp [processSuggestions, hskip]] at h ⊢
      rw [show processSuggestions maxE ((sug :: rest) ++ l₂) seen acc
          = processSuggestions maxE (rest ++ l₂) seen acc from by
        simp [processSuggestions, hskip]]
      exact ih l₂ seen acc h
    · by_cases hcap : maxE ≤ acc.length + 1
      · rw [show processSuggestions maxE ((sug :: rest) ++ l₂) seen acc
            = (normalize_query sug :: seen, acc ++ [normalize_query sug], true) from by
          simp [processSuggestions, hskip, hcap]]
        rw [show processSuggestions maxE (sug :: rest) seen acc
            = (normalize_query sug :: seen, acc ++ [normalize_query sug], true) from by
          simp [processSuggestions, hskip, hcap]]
      · rw [show processSuggestions maxE (sug :: rest) seen acc
            = processSuggestions maxE rest (normalize_query sug :: seen)
                (acc ++ [normalize_query sug]) from by
          simp [processSuggestions, hskip, hcap]] at h ⊢
        rw [show processSuggestions maxE ((sug :: rest) ++ l₂) seen acc
            = processSuggestions maxE (rest ++ l₂) (normalize_query sug :: seen)
                (acc ++ [normalize_query sug]) from by
          simp [processSuggestions, hskip, hcap]]
        exact ih l₂ _ _ h

lemma expandStrategies_append_of_capped (maxE : ℕ) (nq : String) (ctx : γ) :
    ∀ (S T : List (String → γ → List String)) (seen acc : List String),
      (expandStrategies maxE nq ctx S seen acc).2 = true →
      expandStrategies maxE nq ctx (S ++ T) seen acc
        = expandStrategies maxE nq ctx S seen acc := by
  intro S
  induction S with
  | nil => intro T seen acc h; simp [expandStrategies] at h
  | cons strat rest ih =>
    intro T seen acc h
    rcases hp : processSuggestions maxE (strat nq ctx) seen acc with ⟨seen', acc', capped⟩
    cases capped with
    | true =>
      rw [show expandStrategies maxE nq ctx (strat :: rest) seen acc = (acc', true) from by
        simp [expandStrategies, hp]]
      rw [show expandStrategies maxE nq ctx ((strat :: rest) ++ T) seen acc
          = (acc', true) from by
        simp [expandStrategies, hp]]
    | false =>
      rw [show expandStrategies maxE nq ctx (strat :: rest) seen acc
          = expandStrategies maxE nq ctx rest seen' acc' from by
        simp [expandStrategies, hp]] at h ⊢
      rw [show expandStrategies maxE nq ctx ((strat :: rest) ++ T) seen acc
          = expandStrategies maxE nq ctx (rest ++ T) seen' acc' from by
        simp [expandStrategies, hp]]
      exact ih T seen' acc' h

end Aura


namespace Aura

/-! ## Lemmas about the confidence statistics -/

lemma record_outcome_eq (repo : ConfidenceRepo) (store : Store) (metric : String)
    (score : ℚ) (passed : Bool) :
    record_outcome repo store metric score passed
      = ((currentStats repo store metric).updated score passed repo.smoothing_factor
            repo.min_threshold repo.max_threshold,
         setRow store metric
           ((currentStats repo store metric).updated score passed repo.smoothing_factor
              repo.min_threshold repo.max_threshold)) := by
  rcases h : store metric with _ | row <;>
    simp [record_outcome, currentStats, h]

lemma updated_rolling_threshold_bounds (s : ConfidenceStats) (score : ℚ) (passed : Bool)
    (sf mn mx : ℚ) (h : mn ≤ mx) :
    mn ≤ (s.updated score passed sf mn mx).rolling_threshold
      ∧ (s.updated score passed sf mn mx).rolling_threshold ≤ mx := by
  refine ⟨le_max_left _ _, ?_⟩
  simp only [ConfidenceStats.updated]
  exact max_le h (min_le_left _ _)

lemma mkConfidenceStatsRepository_ok {dt sf mn mx : ℚ} {repo : ConfidenceRepo}
    (h : mkConfidenceStatsRepository dt sf mn mx = .ok repo) :
    (0 < sf ∧ sf ≤ 1) ∧ (0 ≤ mn ∧ mn ≤ mx ∧ mx ≤ 1)
      ∧ repo = ⟨sf, mn, mx, max mn (min mx dt)⟩ := by
  by_cases h1 : 0 < sf ∧ sf ≤ 1
  · by_cases h2 : 0 ≤ mn ∧ mn ≤ mx ∧ mx ≤ 1
    · refine ⟨h1, h2, ?_⟩
      rw [mkConfidenceStatsRepository] at h
      simp [h1, h2] at h
      exact h.symm
    · rw [mkConfidenceStatsRepository] at h
      simp [h1, h2] at h
  · rw [mkConfidenceStatsRepository] at h
    simp [h1] at h

/-- C2: for every previous stats record `S` (the stored row or the default
seed), `record_outcome` returns and persists a record whose counters are
incremented according to `passed`, whose `rolling_score` is `score` exactly
at the first sample and the exponentially smoothed value otherwise, and whose
`rolling_threshold` is the clamp of `rolling_score' +
(success_count'/sample_count' - 0.5)·0.2` into the configured bounds;
concretely, a fresh metric with `default_threshold=0.6`, `min=0.2`,
`max=0.95`, `smoothing=0.3` and one `record_outcome(score=0.8, passed=True)`
yields sample 1, success 1, rolling score 0.8 and rolling threshold 0.9. -/
theorem record_outcome_matches_update_rule :
    (∀ (repo : ConfidenceRepo) (store : Store) (metric : String) (score : ℚ) (passed : Bool),
      (record_outcome repo store metric score passed).1.success_count
          = (currentStats repo store metric).success_count + (if passed then 1 else 0)
        ∧ (record_outcome repo store metric score passed).1.failure_count
          = (currentStats repo store metric).failure_count + (if passed then 0 else 1)
        ∧ (record_outcome repo store metric score passed).1.sample_count
          = (record_outcome repo store metric score passed).1.success_count
              + (record_outcome repo store metric score passed).1.failure_count
        ∧ (record_outcome repo store metric score passed).1.rolling_score
          = (if (currentStats repo store metric).sample_count = 0 then score
             else (currentStats repo store metric).rolling_score
               + repo.smoothing_factor * (score - (currentStats repo store metric).rolling_score))
        ∧ (record_outcome repo store metric score passed).1.rolling_threshold
          = max repo.min_threshold (min repo.max_threshold
              ((record_outcome repo store metric score passed).1.rolling_score
                + (((record_outcome repo store metric score passed).1.success_count : ℚ)
                    / ((record_outcome repo store metric score passed).1.sample_count : ℚ)
                   - 0.5) * 0.2))
        ∧ (record_outcome repo store metric score passed).2 metric
          = some (record_outcome repo store metric score passed).1)
    ∧ (∃ repo, mkConfidenceStatsRepository 0.6 0.3 0.2 0.95 = .ok repo
        ∧ (record_outcome repo emptyStore "retrieval" 0.8 true).1
          = ⟨"retrieval", 1, 1, 0, 0.8, 0.9⟩) := by
  constructor
  · intro repo store metric score passed
    rw [record_outcome_eq]
    refine ⟨?_, ?_, ?_, ?_, ?_, ?_⟩
    · cases passed <;> simp [ConfidenceStats.updated]
    · cases passed <;> simp [ConfidenceStats.updated]
    · cases passed <;> simp [ConfidenceStats.updated]
    · simp [ConfidenceStats.updated]
    · cases passed <;> simp [ConfidenceStats.updated, Nat.add_eq_zero]
    · simp [setRow]
  · refine ⟨⟨0.3, 0.2, 0.95, 0.6⟩, ?_, ?_⟩
    · rw [mkConfidenceStatsRepository]
      norm_num [min_def, max_def]
    · simp [record_outcome, currentStats, emptyStore, ConfidenceStats.with_default,
        ConfidenceStats.updated]
      norm_num [min_def, max_def]

/-- C3: when the repository construction succeeds, the clamped default
threshold already lies in `[min_threshold, max_threshold]` (so a record is
created in bounds), and after every prefix of an arbitrary sequence of
`record_outcome` calls the stored `rolling_threshold` stays in bounds. -/
theorem rolling_threshold_stays_in_bounds :
    ∀ (dt sf mn mx : ℚ) (repo : ConfidenceRepo),
      mkConfidenceStatsRepository dt sf mn mx = .ok repo →
      (mn ≤ repo.default_threshold ∧ repo.default_threshold ≤ mx)
      ∧ (∀ metric : String,
          mn ≤ (ensure_metric repo emptyStore metric).1.rolling_threshold
            ∧ (ensure_metric repo emptyStore metric).1.rolling_threshold ≤ mx)
      ∧ (∀ (metric : String) (calls : List (ℚ × Bool)) (n : ℕ) (s : ConfidenceStats),
          (runOutcomes repo metric emptyStore (List.take n calls)) metric = some s →
          mn ≤ s.rolling_threshold ∧ s.rolling_threshold ≤ mx) := by
  intro dt sf mn mx repo h
  obtain ⟨h1, ⟨hmn0, hmnmx, hmx1⟩, rfl⟩ := mkConfidenceStatsRepository_ok h
  have hdt : mn ≤ max mn (min mx dt) ∧ max mn (min mx dt) ≤ mx :=
    ⟨le_max_left _ _, max_le hmnmx (min_le_left _ _)⟩
  refine ⟨hdt, ?_, ?_⟩
  · intro metric
    simpa [ensure_metric, emptyStore, ConfidenceStats.with_default] using hdt
  · intro metric calls n
    have hrun : ∀ (cs : List (ℚ × Bool)) (store : Store),
        (∀ s, store metric = some s → mn ≤ s.rolling_threshold ∧ s.rolling_threshold ≤ mx) →
        ∀ s, (runOutcomes ⟨sf, mn, mx, max mn (min mx dt)⟩ metric store cs) metric = some s →
          mn ≤ s.rolling_threshold ∧ s.rolling_threshold ≤ mx := by
      intro cs
      induction cs with
      | nil => intro store hstore s hs; exact hstore s hs
      | cons c t ih =>
        intro store hstore s hs
        rw [show runOutcomes ⟨sf, mn, mx, max mn (min mx dt)⟩ metric store (c :: t)
            = runOutcomes ⟨sf, mn, mx, max mn (min mx dt)⟩ metric
                (record_outcome ⟨sf, mn, mx, max mn (min mx dt)⟩ store metric c.1 c.2).2 t
          from rfl] at hs
        refine ih _ ?_ s hs
        intro s' hs'
        rw [record_outcome_eq] at hs'
        simp only [setRow, if_pos rfl] at hs'
        obtain rfl := Option.some_inj.mp hs'.symm
        exact updated_rolling_threshold_bounds _ c.1 c.2 sf mn mx hmnmx
    intro s hs
    exact hrun (List.take n calls) emptyStore (by intro s' hs'; simp [emptyStore] at hs') s hs

/-- Witness for C3 at a concrete configuration and call sequence. -/
theorem rolling_threshold_stays_in_bounds_witness :
    (runOutcomes ⟨1, 0, 1, 1⟩ "retrieval" emptyStore
        (List.take 1 [((1 : ℚ), true)])) "retrieval"
      = some ⟨"retrieval", 1, 1, 0, 1, 1⟩
    ∧ (0 : ℚ) ≤ (⟨"retrieval", 1, 1, 0, 1, 1⟩ : ConfidenceStats).rolling_threshold
    ∧ (⟨"retrieval", 1, 1, 0, 1, 1⟩ : ConfidenceStats).rolling_threshold ≤ 1 := by
  have heval : (runOutcomes ⟨1, 0, 1, 1⟩ "retrieval" emptyStore
      (List.take 1 [((1 : ℚ), true)])) "retrieval"
      = some ⟨"retrieval", 1, 1, 0, 1, 1⟩ := by
    simp [runOutcomes, record_outcome, emptyStore, setRow,
      ConfidenceStats.with_default, ConfidenceStats.updated]
    norm_num [min_def, max_def]
  have hmk : mkConfidenceStatsRepository 1 1 0 1 = .ok ⟨1, 0, 1, 1⟩ := by
    rw [mkConfidenceStatsRepository]
    norm_num [min_def, max_def]
  exact ⟨heval,
    (rolling_threshold_stays_in_bounds 1 1 0 1 ⟨1, 0, 1, 1⟩ hmk).2.2 "retrieval"
      [((1 : ℚ), true)] 1 ⟨"retrieval", 1, 1, 0, 1, 1⟩ heval⟩

end Aura

namespace Aura

/-- C7: `evaluate` applies the threshold stored before its own update
(`applied_threshold` equals `get_threshold` of the pre-call store),
`passed` is `score >= applied_threshold`; with `update_stats` the reported
`updated_threshold` is the post-update stored threshold, and without it the
reported `updated_threshold` equals `applied_threshold` and no outcome is
recorded (the store is only touched by `ensure_metric`'s record creation). -/
theorem evaluate_threshold_snapshot {α : Type _} :
    ∀ (repo : ConfidenceRepo) (metric : String) (backend : CandidateAnswer α → ℚ)
      (store : Store) (candidate : CandidateAnswer α) (update_stats : Bool),
      (evaluate repo metric backend store candidate update_stats).1.applied_threshold
          = (get_threshold repo store metric).1
        ∧ ((evaluate repo metric backend store candidate update_stats).1.passed = true
            ↔ (evaluate repo metric backend store candidate update_stats).1.applied_threshold
                ≤ (evaluate repo metric backend store candidate update_stats).1.score)
        ∧ (update_stats = true →
            (evaluate repo metric backend store candidate update_stats).1.updated_threshold
              = (get_threshold repo
                  (evaluate repo metric backend store candidate update_stats).2 metric).1)
        ∧ (update_stats = false →
            (evaluate repo metric backend store candidate update_stats).1.updated_threshold
                = (evaluate repo metric backend store candidate update_stats).1.applied_threshold
              ∧ (evaluate repo metric backend store candidate update_stats).2
                  = (ensure_metric repo store metric).2) := by
  intro repo metric backend store candidate update_stats
  refine ⟨rfl, by simp [evaluate], ?_, ?_⟩
  · rintro rfl
    simp only [evaluate, record_outcome_eq]
    rcases hsm : store metric with _ | row
    · simp [ensure_metric, hsm, get_threshold, setRow, currentStats]
    · simp [ensure_metric, hsm, get_threshold, setRow, currentStats]
  · rintro rfl
    exact ⟨rfl, rfl⟩

/-- Witness for C7 at a concrete repository, store, backend and candidate. -/
theorem evaluate_threshold_snapshot_witness :
    (evaluate (α := Unit) ⟨1, 0, 1, 1⟩ "retrieval" (fun _ => 1) emptyStore
          ⟨"q", "c", "a", []⟩ true).1.applied_threshold
        = (get_threshold ⟨1, 0, 1, 1⟩ emptyStore "retrieval").1
      ∧ (evaluate (α := Unit) ⟨1, 0, 1, 1⟩ "retrieval" (fun _ => 1) emptyStore
            ⟨"q", "c", "a", []⟩ true).1.updated_threshold
        = (get_threshold ⟨1, 0, 1, 1⟩
            (evaluate (α := Unit) ⟨1, 0, 1, 1⟩ "retrieval" (fun _ => 1) emptyStore
              ⟨"q", "c", "a", []⟩ true).2 "retrieval").1
      ∧ (evaluate (α := Unit) ⟨1, 0, 1, 1⟩ "retrieval" (fun _ => 1) emptyStore
            ⟨"q", "c", "a", []⟩ false).1.updated_threshold
        = (evaluate (α := Unit) ⟨1, 0, 1, 1⟩ "retrieval" (fun _ => 1) emptyStore
            ⟨"q", "c", "a", []⟩ false).1.applied_threshold :=
  ⟨(evaluate_threshold_snapshot ⟨1, 0, 1, 1⟩ "retrieval" (fun _ => 1) emptyStore
      ⟨"q", "c", "a", []⟩ true).1,
   (evaluate_threshold_snapshot ⟨1, 0, 1, 1⟩ "retrieval" (fun _ => 1) emptyStore
      ⟨"q", "c", "a", []⟩ true).2.2.1 rfl,
   ((evaluate_threshold_snapshot ⟨1, 0, 1, 1⟩ "retrieval" (fun _ => 1) emptyStore
      ⟨"q", "c", "a", []⟩ false).2.2.2 rfl).1⟩

end Aura

namespace Aura

/-! ## Claim theorems for RRF -/

variable {α : Type _}

/-- C4: in the metadata merge, the value stored for a key is exactly
determined by the distinct values seen for that key in first-seen order: one
distinct value stays a scalar, a second distinct value produces the list
`[original, new]`, further distinct values are appended, and a value equal to
one already seen never adds a duplicate (the distinct-value list is
duplicate-free). -/
theorem merge_metadata_distinct_values [DecidableEq α] :
    ∀ (documents : List (ScoredDocument α)) (key : String),
      alookup (merge_metadata documents) key
          = mergedOf (firstDedup (valuesFor key (metaItems documents)))
        ∧ (firstDedup (valuesFor key (metaItems documents))).Nodup
        ∧ (∀ v, v ∈ firstDedup (valuesFor key (metaItems documents))
              ↔ v ∈ valuesFor key (metaItems documents)) :=
  fun documents key =>
    ⟨alookup_merge_metadata documents key, nodup_firstDedup _,
     fun v => mem_firstDedup_iff _ v⟩

/-- C1: on any valid call, the fused output assigns every document the spec's
reciprocal-rank score (sum over its occurrences of `weight / (k + rank)`),
is sorted by fused score descending, contains one entry per distinct
document id (exactly the ids occurring in the input), and a `limit` call
returns the truncated sorted result. -/
theorem rrf_matches_spec [DecidableEq α] :
    ∀ (result_sets : List (List (ScoredDocument α))) (k : ℕ)
      (weights : Option (List ℚ)) (out : List (FusedDocument α)),
      weightsOk weights result_sets = true →
      reciprocal_rank_fusion result_sets k none weights = .ok out →
      (∀ d ∈ out, d.score = specFusedScore k weights 0 result_sets d.document_id)
      ∧ out.Pairwise (fun a b => b.score ≤ a.score)
      ∧ (out.map fun d => d.document_id).Nodup
      ∧ (∀ id, (id ∈ out.map fun d => d.document_id) ↔ id ∈ processedIds result_sets)
      ∧ (∀ lim, reciprocal_rank_fusion result_sets k (some lim) weights
          = .ok (out.take lim)) := by
  intro rs k w out hw hok
  by_cases hemp : rs.isEmpty
  · have hrs : rs = [] := List.isEmpty_iff.mp hemp
    subst hrs
    rw [show reciprocal_rank_fusion ([] : List (List (ScoredDocument α))) k none w
        = Except.ok [] from rfl] at hok
    obtain rfl : ([] : List (FusedDocument α)) = out := by
      simpa using hok
    simp [processedIds, reciprocal_rank_fusion]
  · have hout : (Except.ok (sortDesc (fusedDocuments k w rs)) : Except String _)
        = Except.ok out := by
      rw [← hok]
      simp [reciprocal_rank_fusion, hemp, hw]
    obtain rfl : sortDesc (fusedDocuments k w rs) = out := by simpa using hout
    refine ⟨?_, sortDesc_sorted _, ?_, ?_, ?_⟩
    · intro d hd
      have hd' : d ∈ fusedDocuments k w rs := (sortDesc_perm _).subset hd
      exact (score_of_mem_fusedDocuments hd').1
    · have hperm := (sortDesc_perm (fusedDocuments k w rs)).map (fun d => d.document_id)
      rw [hperm.nodup_iff, map_ids_fusedDocuments]
      exact nodup_firstDedup _
    · intro id
      have hperm := (sortDesc_perm (fusedDocuments k w rs)).map (fun d => d.document_id)
      rw [hperm.mem_iff, map_ids_fusedDocuments, mem_firstDedup_iff]
    · intro lim
      simp [reciprocal_rank_fusion, hemp, hw]

/-- Witness for C1 on the spec's scenario: fusing
`[[("x",0.1)], [("x",0.2),("y",0.05)]]` with `k=60`, unweighted, yields `x`
with fused score `2/61` ordered before `y` with `1/62`, and `limit=1`
truncates the sorted result. -/
theorem rrf_matches_spec_witness :
    reciprocal_rank_fusion (α := Unit)
        [[⟨"x", 1/10, []⟩], [⟨"x", 1/5, []⟩, ⟨"y", 1/20, []⟩]] 60 none none
      = .ok [⟨"x", 2/61, [], [⟨"x", 1/10, []⟩, ⟨"x", 1/5, []⟩]⟩,
             ⟨"y", 1/62, [], [⟨"y", 1/20, []⟩]⟩]
    ∧ reciprocal_rank_fusion (α := Unit)
        [[⟨"x", 1/10, []⟩], [⟨"x", 1/5, []⟩, ⟨"y", 1/20, []⟩]] 60 (some 1) none
      = .ok [⟨"x", 2/61, [], [⟨"x", 1/10, []⟩, ⟨"x", 1/5, []⟩]⟩] := by
  have heval : reciprocal_rank_fusion (α := Unit)
      [[⟨"x", 1/10, []⟩], [⟨"x", 1/5, []⟩, ⟨"y", 1/20, []⟩]] 60 none none
      = .ok [⟨"x", 2/61, [], [⟨"x", 1/10, []⟩, ⟨"x", 1/5, []⟩]⟩,
             ⟨"y", 1/62, [], [⟨"y", 1/20, []⟩]⟩] := by
    simp [reciprocal_rank_fusion, weightsOk, fusedDocuments, fusedScores, rrfItems,
      rankItems, scoresStep, alookup, updA, contribsOf, merge_metadata, mergeItem,
      sortDesc, insertDesc, weightAt]
    norm_num
  refine ⟨heval, ?_⟩
  exact (rrf_matches_spec
      [[⟨"x", 1/10, []⟩], [⟨"x", 1/5, []⟩, ⟨"y", 1/20, []⟩]] 60 none
      [⟨"x", 2/61, [], [⟨"x", 1/10, []⟩, ⟨"x", 1/5, []⟩]⟩,
       ⟨"y", 1/62, [], [⟨"y", 1/20, []⟩]⟩] rfl heval).2.2.2.2 1

end Aura

namespace Aura

variable {α : Type _}

lemma rrfItems_none_shift (k : ℕ) (rss : List (List (ScoredDocument α))) :
    ∀ i j, rrfItems k none i rss = rrfItems k none j rss := by
  induction rss with
  | nil => intro i j; rfl
  | cons results rest ih =>
    intro i j
    simp only [rrfItems, weightAt]
    rw [ih (i + 1) (j + 1)]

/-- C6 counterexample: when `result_sets` is empty, mismatched weights do NOT
raise — the function returns `[]` before the weights validation. -/
theorem rrf_empty_input_skips_weights_check :
    reciprocal_rank_fusion (α := Unit) [] 60 none (some [1]) = .ok []
      ∧ [(1 : ℚ)].length ≠ ([] : List (List (ScoredDocument Unit))).length :=
  ⟨rfl, by decide⟩

/-- C6 (amended): on a NON-empty `result_sets`, a provided weights list of
mismatched length raises the validation error before any fusion; an empty
`result_sets` returns `[]` (even when mismatched weights were provided,
because the empty-input check comes first); and a member list that is itself
empty contributes nothing and does not error. -/
theorem rrf_weights_validation [DecidableEq α] :
    (∀ (result_sets : List (List (ScoredDocument α))) (k : ℕ)
        (limit : Option ℕ) (ws : List ℚ),
      result_sets ≠ [] → ws.length ≠ result_sets.length →
      reciprocal_rank_fusion result_sets k limit (some ws)
        = .error "weights length must match the number of result sets")
    ∧ (∀ (k : ℕ) (limit : Option ℕ) (w : Option (List ℚ)),
        reciprocal_rank_fusion (α := α) [] k limit w = .ok [])
    ∧ (∀ (result_sets : List (List (ScoredDocument α))) (k : ℕ) (limit : Option ℕ),
        reciprocal_rank_fusion ([] :: result_sets) k limit none
          = reciprocal_rank_fusion result_sets k limit none) := by
  refine ⟨?_, ?_, ?_⟩
  · intro rs k limit ws hne hlen
    have hemp : rs.isEmpty = false := by
      simpa [List.isEmpty_iff] using hne
    simp [reciprocal_rank_fusion, hemp, weightsOk, hlen]
  · intro k limit w
    rfl
  · intro rs k limit
    rcases rs with _ | ⟨r, t⟩
    · cases limit <;>
        simp [reciprocal_rank_fusion, weightsOk, fusedDocuments, fusedScores,
          rrfItems, rankItems, sortDesc, weightAt]
    · have hscores : fusedScores k none ([] :: r :: t) = fusedScores k none (r :: t) := by
        rw [show fusedScores k none ([] :: r :: t)
            = (rrfItems k none 0 ([] :: r :: t)).foldl scoresStep [] from rfl]
        rw [show rrfItems k none 0 ([] :: r :: t)
            = rankItems k (weightAt none 0) 1 [] ++ rrfItems k none 1 (r :: t) from rfl]
        rw [rrfItems_none_shift k (r :: t) 1 0]
        rfl
      have hdocs : fusedDocuments k none ([] :: r :: t) = fusedDocuments k none (r :: t) := by
        rw [show fusedDocuments k none ([] :: r :: t)
            = (fusedScores k none ([] :: r :: t)).map (fun p =>
                { document_id := p.1
                  score := p.2
                  metadata := merge_metadata (contribsOf ([] :: r :: t) p.1)
                  contributions := contribsOf ([] :: r :: t) p.1 }) from rfl]
        rw [hscores]
        refine List.map_congr_left ?_
        intro p _
        have hc : contribsOf ([] :: r :: t) p.1 = contribsOf (r :: t) p.1 := by
          simp [contribsOf]
        rw [hc]
      simp [reciprocal_rank_fusion, weightsOk, hdocs]

/-- Witness for C6 at a concrete non-empty input with mismatched weights. -/
theorem rrf_weights_validation_witness :
    reciprocal_rank_fusion (α := Unit) [[⟨"x", 1, []⟩]] 60 none (some [1, 2])
      = .error "weights length must match the number of result sets" :=
  rrf_weights_validation.1 [[⟨"x", 1, []⟩]] 60 none [1, 2] (by simp) (by decide)

end Aura

namespace Aura

variable {α : Type _}

/-- C10: documents with exactly equal fused scores appear in the output in
first-seen order — the sort is stable over the `fused_scores` insertion
order, whose key order is the first-seen order of document ids over the
result lists in sequence order and rank order within each list. -/
theorem rrf_equal_scores_first_seen_order [DecidableEq α] :
    ∀ (result_sets : List (List (ScoredDocument α))) (k : ℕ)
      (weights : Option (List ℚ)) (out : List (FusedDocument α)),
      weightsOk weights result_sets = true →
      reciprocal_rank_fusion result_sets k none weights = .ok out →
      (∀ s : ℚ, (out.filter fun d => d.score = s).map (fun d => d.document_id)
          = ((fusedDocuments k weights result_sets).filter fun d => d.score = s).map
              (fun d => d.document_id))
      ∧ (fusedDocuments k weights result_sets).map (fun d => d.document_id)
          = firstDedup (processedIds result_sets) := by
  intro rs k w out hw hok
  by_cases hemp : rs.isEmpty
  · have hrs : rs = [] := List.isEmpty_iff.mp hemp
    subst hrs
    rw [show reciprocal_rank_fusion ([] : List (List (ScoredDocument α))) k none w
        = Except.ok [] from rfl] at hok
    obtain rfl : ([] : List (FusedDocument α)) = out := by simpa using hok
    exact ⟨fun s => rfl, rfl⟩
  · have hout : (Except.ok (sortDesc (fusedDocuments k w rs)) : Except String _)
        = Except.ok out := by
      rw [← hok]
      simp [reciprocal_rank_fusion, hemp, hw]
    obtain rfl : sortDesc (fusedDocuments k w rs) = out := by simpa using hout
    refine ⟨?_, map_ids_fusedDocuments k w rs⟩
    intro s
    rw [filter_score_sortDesc]

/-- Witness for C10: two documents from different lists tie at `1/61`; the
output keeps them in first-seen order. -/
theorem rrf_equal_scores_first_seen_order_witness :
    ((sortDesc (fusedDocuments (α := Unit) 60 none
          [[⟨"x", 1, []⟩], [⟨"y", 1, []⟩]])).filter
        (fun d => d.score = 1/61)).map (fun d => d.document_id)
      = ((fusedDocuments (α := Unit) 60 none
            [[⟨"x", 1, []⟩], [⟨"y", 1, []⟩]]).filter
          (fun d => d.score = 1/61)).map (fun d => d.document_id)
    ∧ (fusedDocuments (α := Unit) 60 none
          [[⟨"x", 1, []⟩], [⟨"y", 1, []⟩]]).map (fun d => d.document_id)
      = firstDedup (processedIds (α := Unit) [[⟨"x", 1, []⟩], [⟨"y", 1, []⟩]]) :=
  ⟨(rrf_equal_scores_first_seen_order [[⟨"x", 1, []⟩], [⟨"y", 1, []⟩]] 60 none
      (sortDesc (fusedDocuments 60 none [[⟨"x", 1, []⟩], [⟨"y", 1, []⟩]]))
      rfl rfl).1 (1/61),
   (rrf_equal_scores_first_seen_order [[⟨"x", 1, []⟩], [⟨"y", 1, []⟩]] 60 none
      (sortDesc (fusedDocuments 60 none [[⟨"x", 1, []⟩], [⟨"y", 1, []⟩]]))
      rfl rfl).2⟩

end Aura

namespace Aura

/-! ## Claim theorems for query expansion -/

variable {γ : Type _}

/-- C5 counterexample: with `include_original` set and the cap reached, the
early return skips the prepend — the original is NOT the first element even
though the collected expansions do not contain it. -/
theorem expand_cap_skips_original_counterexample :
    QueryExpander.expand (γ := Unit) ⟨[fun _ _ => ["a"]], 1, true⟩ "q" () = ["a"]
    ∧ (QueryExpander.mk (γ := Unit) [fun _ _ => ["a"]] 1 true).include_original = true
    ∧ normalize_query "q"
        ∉ QueryExpander.expand (γ := Unit) ⟨[fun _ _ => ["a"]], 1, true⟩ "q" ()
    ∧ (QueryExpander.expand (γ := Unit) ⟨[fun _ _ => ["a"]], 1, true⟩ "q" ()).head?
        ≠ some (normalize_query "q") := by
  refine ⟨by decide, rfl, by decide, by decide⟩

/-- C5 (amended): with `include_original` set, the normalized original is
never among the collected expansions; when the strategy loop completes
without reaching the cap, the original is prepended as the first element
(not counted against the cap) — but when the cap triggered the early return,
the result is returned as-is without the original. -/
theorem expand_include_original :
    ∀ (e : QueryExpander γ) (q : String) (ctx : γ)
      (exp : List String) (capped : Bool),
      e.include_original = true →
      expandStrategies e.max_expansions (normalize_query q) ctx e.strategies
        [normalize_query q] [] = (exp, capped) →
      normalize_query q ∉ exp
      ∧ (capped = false → QueryExpander.expand e q ctx = normalize_query q :: exp)
      ∧ (capped = true → QueryExpander.expand e q ctx = exp) := by
  intro e q ctx exp capped hinc hES
  have hnot : normalize_query q ∉ exp := by
    have h := original_not_mem_expandStrategies e q ctx
    rw [hES] at h
    exact h
  refine ⟨hnot, ?_, ?_⟩
  · rintro rfl
    simp [QueryExpander.expand, hES, hinc, hnot]
  · rintro rfl
    simp [QueryExpander.expand, hES]

/-- Witness for the amended C5: an uncapped run prepends the original. -/
theorem expand_include_original_witness :
    QueryExpander.expand (γ := Unit) ⟨[fun _ _ => ["a"]], 2, true⟩ "q" ()
      = normalize_query "q" :: ["a"] :=
  (expand_include_original ⟨[fun _ _ => ["a"]], 2, true⟩ "q" () ["a"] false rfl
    (by decide)).2.1 rfl

/-- C8 counterexample: a whitespace-only query raises no validation error —
the strategies are invoked with the empty normalized query and their
suggestions are returned. -/
theorem expand_empty_query_no_error_counterexample :
    normalize_query "   " = ""
    ∧ QueryExpander.expand (γ := Unit) ⟨[fun _ _ => ["a"]], 8, false⟩ "   " ()
        = ["a"] := by
  refine ⟨by decide, by decide⟩

/-- C8 (amended): `expand` performs no emptiness validation; any query whose
normalization is empty is processed exactly like the empty query (the result
is a total function of the normalized query). -/
theorem expand_no_empty_query_validation :
    ∀ (e : QueryExpander γ) (ctx : γ) (q : String),
      normalize_query q = "" →
      QueryExpander.expand e q ctx = QueryExpander.expand e "" ctx := by
  intro e ctx q hq
  simp [QueryExpander.expand, hq, show normalize_query "" = "" from rfl]

/-- Witness for the amended C8 at a whitespace-only query. -/
theorem expand_no_empty_query_validation_witness :
    QueryExpander.expand (γ := Unit) ⟨[fun _ _ => ["a"]], 8, false⟩ "   " ()
      = QueryExpander.expand (γ := Unit) ⟨[fun _ _ => ["a"]], 8, false⟩ "" () :=
  expand_no_empty_query_validation ⟨[fun _ _ => ["a"]], 8, false⟩ () "   " (by decide)

/-- C9 counterexample: with `max_expansions = 0`, one expansion is still
collected before the cap check fires, so the result exceeds the cap. -/
theorem expand_cap_zero_counterexample :
    QueryExpander.expand (γ := Unit) ⟨[fun _ _ => ["a"]], 0, false⟩ "q" () = ["a"]
    ∧ ¬((QueryExpander.expand (γ := Unit) ⟨[fun _ _ => ["a"]], 0, false⟩ "q" ()).length
        ≤ (QueryExpander.mk (γ := Unit) [fun _ _ => ["a"]] 0 false).max_expansions) := by
  refine ⟨by decide, by decide⟩

/-- C9 (amended): for `max_expansions ≥ 1`, `expand` returns at most
`max_expansions` entries excluding an explicitly included original; and the
collection is truncation-invariant once the cap fires: suggestions after the
capping one and strategies after the capping strategy never influence the
result. -/
theorem expand_cap_and_early_stop :
    (∀ (e : QueryExpander γ) (q : String) (ctx : γ),
      1 ≤ e.max_expansions →
      ((QueryExpander.expand e q ctx).filter (fun s => s ≠ normalize_query q)).length
        ≤ e.max_expansions)
    ∧ (∀ (maxE : ℕ) (nq : String) (ctx : γ)
        (S T : List (String → γ → List String)) (seen acc : List String),
        (expandStrategies maxE nq ctx S seen acc).2 = true →
        expandStrategies maxE nq ctx (S ++ T) seen acc
          = expandStrategies maxE nq ctx S seen acc)
    ∧ (∀ (maxE : ℕ) (l₁ l₂ seen acc : List String),
        (processSuggestions maxE l₁ seen acc).2.2 = true →
        processSuggestions maxE (l₁ ++ l₂) seen acc
          = processSuggestions maxE l₁ seen acc) := by
  refine ⟨?_, expandStrategies_append_of_capped, processSuggestions_append_of_capped⟩
  intro e q ctx hmax
  rcases hES : expandStrategies e.max_expansions (normalize_query q) ctx e.strategies
      [normalize_query q] [] with ⟨exp, capped⟩
  have hnot : normalize_query q ∉ exp := by
    have h := original_not_mem_expandStrategies e q ctx
    rw [hES] at h
    exact h
  have hlen := expandStrategies_length e.max_expansions (normalize_query q) ctx
      e.strategies [normalize_query q] [] (by simpa using hmax)
  rw [hES] at hlen
  have hfil : exp.filter (fun s => s ≠ normalize_query q) = exp := by
    refine List.filter_eq_self.mpr ?_
    intro x hx
    simp only [ne_eq, decide_not, Bool.not_eq_eq_eq_not, Bool.not_true,
      decide_eq_false_iff_not]
    rintro rfl
    exact absurd hx hnot
  cases capped with
  | true =>
    rw [show QueryExpander.expand e q ctx = exp from by
      simp [QueryExpander.expand, hES]]
    rw [hfil]
    exact hlen.1
  | false =>
    by_cases hio : e.include_original = true ∧ normalize_query q ∉ exp
    · rw [show QueryExpander.expand e q ctx = normalize_query q :: exp from by
        simp [QueryExpander.expand, hES, hio.1, hio.2]]
      rw [List.filter_cons_of_neg (by simp), hfil]
      exact hlen.1
    · rw [show QueryExpander.expand e q ctx = exp from by
        simp only [QueryExpander.expand, hES]
        simp [hio]]
      rw [hfil]
      exact hlen.1

/-- Witness for the amended C9: with cap 1, a strategy offering two
suggestions yields one expansion, and the suggestions after the capping one
are ignored. -/
theorem expand_cap_and_early_stop_witness :
    ((QueryExpander.expand (γ := Unit) ⟨[fun _ _ => ["a", "b"]], 1, false⟩ "q" ()).filter
        (fun s => s ≠ normalize_query "q")).length
      ≤ (QueryExpander.mk (γ := Unit) [fun _ _ => ["a", "b"]] 1 false).max_expansions
    ∧ processSuggestions 1 (["a"] ++ ["b"]) ["q"] []
        = processSuggestions 1 ["a"] ["q"] [] :=
  ⟨((expand_cap_and_early_stop (γ := Unit)).1 ⟨[fun _ _ => ["a", "b"]], 1, false⟩
      "q" () (by decide)),
   (expand_cap_and_early_stop (γ := Unit)).2.2 1 ["a"] ["b"] ["q"] [] (by decide)⟩

end Aura
